import Mathlib

/-!
Shallow embedding of `src/main.py` (Century-Fox auto-post Telegram bot).

Covered pieces of the source:
* the scheduled-post queue `post_queue` (a Python list of dicts) and the
  `/post` command handler (lines 132-152), including its pipe-splitting,
  stripping and `int()` parsing;
* the dispatch loop `auto_post_loop` (lines 157-170), both as a serialized
  per-tick function and as a small-step system that exposes the `await`
  suspension points inside a tick;
* the polling client inside `generate_voice` (lines 88-99);
* the per-user voice-mode registry `user_voice_mode` (lines 115-121, 179);
* the `/queue` listing handler (lines 123-130).

Timestamps are modelled as integer microseconds since the epoch (`Int`),
matching the microsecond resolution of `datetime.now()`; `strftime`/`strptime`
with format `%Y-%m-%d %H:%M:%S` round-trips a datetime to whole seconds,
which is the `truncUsec` operation below.  All wall-clock values occurring
in a real run are non-negative.
-/

namespace CenturyFox

/-- A scheduled post: the dict appended by `post` (src/main.py:145-150).
`time` is the timestamp that `strptime` recovers from the stored
`%Y-%m-%d %H:%M:%S` string, in microseconds (so it is always a whole
multiple of 1000000). -/
structure Item where
  title : String
  message : String
  link : String
  time : Int
deriving DecidableEq, Repr

/-- Truncation of a microsecond timestamp to whole seconds: the effect of
storing via `strftime("%Y-%m-%d %H:%M:%S")` (src/main.py:149) and parsing
back via `strptime` (src/main.py:160). -/
def truncUsec (t : Int) : Int := (t / 1000000) * 1000000

/-- Microseconds in one minute: `timedelta(minutes=1)`. -/
def usecPerMinute : Int := 60000000

/-- Python whitespace for `str.strip` and the surrounding-space handling of `int`. -/
def isPySpace (c : Char) : Bool :=
  c = ' ' || c = '\t' || c = '\n' || c = '\r' || c = '\x0b' || c = '\x0c'

/-- `str.strip()` on a character list. -/
def stripChars (cs : List Char) : List Char :=
  ((cs.dropWhile isPySpace).reverse.dropWhile isPySpace).reverse

/-- `str.strip()` (src/main.py:139). -/
def pyStrip (s : String) : String := String.mk (stripChars s.data)

/-- `str.split(sep, maxsplit)` on character lists: at most `fuel` splits at
single-character separator `sep`, like the two-argument `split` of Python. -/
def splitLimitCore (sep : Char) : Nat → List Char → List Char → List String
  | _, acc, [] => [String.mk acc.reverse]
  | fuel, acc, c :: cs =>
    if c = sep then
      match fuel with
      | 0 => splitLimitCore sep 0 (c :: acc) cs
      | f + 1 => String.mk acc.reverse :: splitLimitCore sep f [] cs
    else splitLimitCore sep fuel (c :: acc) cs

/-- `s.split(sep, n)` for a one-character separator (src/main.py:138-139). -/
def splitLimit (sep : Char) (n : Nat) (s : String) : List String :=
  splitLimitCore sep n [] s.data

/-- Digits-only check used by `pyInt?`. -/
def allDigits (cs : List Char) : Bool := cs.all (fun c => c.isDigit)

/-- Value of a digit string (most significant first). -/
def digitsToNat (cs : List Char) : Nat :=
  cs.foldl (fun acc c => acc * 10 + (c.toNat - 48)) 0

/-- Python `int(s)` (src/main.py:140): strips surrounding whitespace, then an
optional sign followed by a non-empty digit string; anything else raises
`ValueError`, modelled as `none`.  (Python also allows underscores between
digits; no claim depends on that, and the inputs used here contain none.) -/
def pyInt? (s : String) : Option Int :=
  match stripChars s.data with
  | [] => none
  | '+' :: cs => if cs ≠ [] && allDigits cs then some (digitsToNat cs) else none
  | '-' :: cs => if cs ≠ [] && allDigits cs then some (-(digitsToNat cs : Int)) else none
  | cs => if allDigits cs then some (digitsToNat cs) else none

/-- The field extraction of the `/post` handler (src/main.py:138-140):
`text.split(" ", 1)` must give a command and a payload, the payload is split
on `"|"` with maxsplit 3 and must unpack into exactly four fields, each field
is stripped, and the minutes field must parse with `int()`.  Any failure
raises and is caught (src/main.py:141-143), modelled as `none`. -/
def extract4 (text : String) : Option (String × String × String × Int) :=
  match splitLimit ' ' 1 text with
  | [_, payload] =>
    match (splitLimit '|' 3 payload).map pyStrip with
    | [a, b, c, d] =>
      match pyInt? d with
      | some m => some (a, b, c, m)
      | none => none
    | _ => none
  | _ => none

/-- The item the `/post` handler appends for fields parsed at time `now`:
`dueAt` is `now + timedelta(minutes=m)` truncated to whole seconds by the
`strftime` storage format (src/main.py:140, 145-150). -/
def mkItem (title message link : String) (now m : Int) : Item :=
  ⟨title, message, link, truncUsec (now + m * usecPerMinute)⟩

/-- The Python `c in s` membership test on a string (src/main.py:133). -/
def pyContains (s : String) (c : Char) : Bool := s.data.contains c

/-- The `/post` command handler (src/main.py:132-152) acting on the queue.
Returns the new queue and whether the schedule succeeded (`false` means the
"Invalid format" reply was sent and the queue was left alone). -/
def post (now : Int) (q : List Item) (text : String) : List Item × Bool :=
  if text = "" || !(pyContains text '|') then (q, false)
  else
    match extract4 text with
    | none => (q, false)
    | some (t, b, l, m) => (q ++ [mkItem t b l now m], true)

/-- Due test of the dispatch loop: `now >= post_time` (src/main.py:161). -/
def due (now : Int) (x : Item) : Bool := decide (x.time ≤ now)

/-- Result of one serialized run of `auto_post_loop`. -/
structure TickRes where
  queue : List Item
  sent : List Item
  failed : Option Item
deriving DecidableEq, Repr

/-- The body of `auto_post_loop` (src/main.py:157-170) run to completion
without interleaving: iterate the snapshot `s` (the Python copy `post_queue[:]`);
for each due item, publish it (`send_photo`) and then remove the first equal
element from the live queue (`post_queue.remove`).  `pubOk` tells whether a
given publish call succeeds; a raising publish aborts the whole loop with
the item not yet removed, exactly as the uncaught exception does.  The
removal always targets a present element here (proved below for the uses),
so `List.erase` coincides with the raising Python `list.remove`. -/
def tickGo (now : Int) (pubOk : Item → Bool) : List Item → List Item → TickRes
  | [], q => ⟨q, [], none⟩
  | x :: rest, q =>
    if due now x then
      if pubOk x then
        ⟨(tickGo now pubOk rest (q.erase x)).queue,
          x :: (tickGo now pubOk rest (q.erase x)).sent,
          (tickGo now pubOk rest (q.erase x)).failed⟩
      else ⟨q, [], some x⟩
    else tickGo now pubOk rest q

/-- One serialized `auto_post_loop` tick: snapshot is the live queue. -/
def tickRun (now : Int) (pubOk : Item → Bool) (q : List Item) : TickRes :=
  tickGo now pubOk q q

/-- A tick in which every publish call succeeds. -/
def tickAll (now : Int) (q : List Item) : TickRes :=
  tickRun now (fun _ => true) q

/-- Queue remaining after a sequence of serialized all-successful ticks. -/
def ticksQueue (ns : List Int) (q : List Item) : List Item :=
  ns.foldl (fun acc m => (tickAll m acc).queue) q

/-- Rendering of the `/queue` handler (src/main.py:123-130); shown here with
the stored time rendered via `toString` in place of the stored
`%Y-%m-%d %H:%M:%S` string.  The handler only reads `post_queue`. -/
def queue_reply (q : List Item) : String :=
  if q = [] then "Queue is empty."
  else
    "Scheduled Posts:\n" ++
      String.join (q.enum.map
        (fun p => toString (p.1 + 1) ++ ". " ++ p.2.title ++ " at " ++ toString p.2.time ++ "\n"))

/-- The `user_voice_mode` dict (src/main.py:25), as a keyed store. -/
def Modes : Type := Nat → Option Bool

/-- The empty registry: the initial `{}`. -/
def emptyModes : Modes := fun _ => none

/-- `user_voice_mode[u] = b` (src/main.py:116, 120). -/
def setMode (m : Modes) (u : Nat) (b : Bool) : Modes :=
  fun v => if v = u then some b else m v

/-- `user_voice_mode.get(u, False)` (src/main.py:179). -/
def getMode (m : Modes) (u : Nat) : Bool := (m u).getD false

/-- One JSON body returned by the status endpoint, as read by
`status_json.get("status")` and `status_json.get("download_url")`
(src/main.py:92-95): both fields may be absent. -/
structure PollResp where
  status : Option String
  download_url : Option String
deriving DecidableEq, Repr

/-- Outcome of the polling loop: a returned download url (with the number of
polls issued and the elapsed milliseconds at return), a raised
`TimeoutError` (again with polls and elapsed time), or fuel exhaustion,
which is proved unreachable for the fuel used by `generate_voice`. -/
inductive PollOut where
  | done : Option String → Nat → Nat → PollOut
  | timedOut : Nat → Nat → PollOut
  | fuelOut : PollOut
deriving DecidableEq, Repr

/-- The `while True` polling loop of `generate_voice` (src/main.py:88-99).
Time is in milliseconds.  `resp k` is the body of the `k`-th status query
(0-based) and `dur k` is the wall-clock time that query takes (the
`requests.get` call has a 10 s transport timeout, so its duration is real
and positive in general).  Each iteration: issue the query (time advances by
`dur k`), return `download_url` if `status == "done"`, raise `TimeoutError`
if the elapsed time since `start` exceeds `timeout`, else `time.sleep` for
`interval` and loop.  Transport failures (`raise_for_status`) are outside
this model; every query is assumed to return a body.  The structural `fuel`
argument only bounds the recursion and never runs out for the fuel chosen in
`generate_voice` (lemma `pollLoop_ne_fuelOut` below). -/
def pollLoop (resp : Nat → PollResp) (dur : Nat → Nat) (interval timeout : Nat) :
    Nat → Nat → Nat → PollOut
  | 0, _, _ => .fuelOut
  | fuel + 1, k, elapsed =>
    if (resp k).status = some "done" then
      .done (resp k).download_url (k + 1) (elapsed + dur k)
    else if timeout < elapsed + dur k then .timedOut (k + 1) (elapsed + dur k)
    else pollLoop resp dur interval timeout fuel (k + 1) (elapsed + dur k + interval)

/-- The polling phase of `generate_voice` (src/main.py:88-99), started with
zero polls issued and zero elapsed time.  In the source `interval` is 2000
ms (`time.sleep(2)`) and `timeout` is 30000 ms (`timeout_seconds = 30`). -/
def generate_voice (resp : Nat → PollResp) (dur : Nat → Nat)
    (interval timeout : Nat) : PollOut :=
  pollLoop resp dur interval timeout (timeout / interval + 2) 0 0

/-- Number of polls recorded in an outcome. -/
def pollsOf : PollOut → Nat
  | .done _ n _ => n
  | .timedOut n _ => n
  | .fuelOut => 0

/-- Elapsed milliseconds recorded in an outcome. -/
def elapsedOf : PollOut → Nat
  | .done _ _ e => e
  | .timedOut _ e => e
  | .fuelOut => 0

/-- Whether the outcome is the raised `TimeoutError`. -/
def isTimedOut : PollOut → Bool
  | .timedOut _ _ => true
  | _ => false

/-!
Small-step semantics of the dispatch engine.

`auto_post_loop` (src/main.py:157-170) is an `async` callback: the only
suspension points inside a tick are the `await context.bot.send_photo`
calls.  While a send is in flight, the event loop may run other tasks: the
`/post` handler (which appends to `post_queue`), the `/queue` handler (a
pure read), or, if the job runner starts overlapping invocations, another
tick.  A `Frame` is one in-flight invocation of `auto_post_loop`: its
captured `now = datetime.now()` (line 158), the remaining part of its
iteration snapshot `post_queue[:]` (line 159), and an item whose
`send_photo` has completed but whose `post_queue.remove` has not yet run
(lines 163-170).  Every publish call is assumed to succeed here; failure
behaviour is covered by `tickGo` above.
-/

/-- One in-flight invocation of `auto_post_loop`. -/
structure Frame where
  fid : Nat
  fnow : Int
  rest : List Item
  pending : Option Item
deriving DecidableEq, Repr

/-- Global state: the live `post_queue`, the in-flight ticks, the log of
publish events (tick id, item) in order, the ghost log of inserted items,
and a fresh-id counter for ticks. -/
structure Config where
  queue : List Item
  frames : List Frame
  events : List (Nat × Item)
  inserted : List Item
  nextId : Nat
deriving DecidableEq, Repr

/-- Starting state with initial queue `q` and no activity. -/
def initConfig (q : List Item) : Config := ⟨q, [], [], [], 0⟩

/-- Scheduler actions: append an item to the queue (the successful tail of
the `/post` handler, line 145), start a tick (lines 157-159), advance an
in-flight tick by one atomic segment, or run the `/queue` handler. -/
inductive Act where
  | ins : Item → Act
  | tick : Int → Act
  | adv : Nat → Act
  | listQ : Act

/-- The pending items of a frame, as a (zero- or one-element) list. -/
def pendList (f : Frame) : List Item := f.pending.toList

/-- One atomic segment of the system.  `adv i` advances frame `i`: complete
the pending `post_queue.remove` (if the item has vanished, the Python
`list.remove` raises `ValueError`, killing the tick task); or retire a
finished frame; or examine the next snapshot item, skipping it when not due
and performing the `send_photo` (recording a publish event) when due. -/
def execAct (c : Config) : Act → Option Config
  | .ins it => some { c with queue := c.queue ++ [it], inserted := c.inserted ++ [it] }
  | .listQ => some c
  | .tick t =>
    some { c with frames := c.frames ++ [⟨c.nextId, t, c.queue, none⟩],
                  nextId := c.nextId + 1 }
  | .adv i =>
    match c.frames.get? i with
    | none => none
    | some f =>
      match f.pending with
      | some x =>
        if x ∈ c.queue then
          some { c with queue := c.queue.erase x,
                        frames := c.frames.set i { f with pending := none } }
        else
          some { c with frames := c.frames.eraseIdx i }
      | none =>
        match f.rest with
        | [] => some { c with frames := c.frames.eraseIdx i }
        | x :: r =>
          if due f.fnow x then
            some { c with frames := c.frames.set i { f with rest := r, pending := some x },
                          events := c.events ++ [(f.fid, x)] }
          else
            some { c with frames := c.frames.set i { f with rest := r } }

/-- Run a list of actions from a configuration; `none` if any action is
inapplicable. -/
def execTrace : Config → List Act → Option Config
  | c, [] => some c
  | c, a :: as =>
    match execAct c a with
    | none => none
    | some c2 => execTrace c2 as

/-- Reachability by serialized schedules: any interleaving of actions in
which a new tick starts only while no other tick is in flight (the
single-instance discipline of the job runner); inserts and
listings may still interleave with a tick at its suspension points. -/
inductive SRun : Config → Config → Prop where
  | refl (c : Config) : SRun c c
  | step {a b c : Config} (act : Act) (h1 : SRun a b) (h2 : execAct b act = some c)
      (h3 : ∀ t, act = Act.tick t → b.frames = []) : SRun a c

/-- Number of publish events for item `v` in an event log. -/
def countPub (v : Item) (es : List (Nat × Item)) : Nat :=
  (es.map Prod.snd).count v

/-- Total pending occurrences of item `v` across frames. -/
def pendCount (v : Item) : List Frame → Nat
  | [] => 0
  | f :: fs => (pendList f).count v + pendCount v fs

/-- Invariant of serialized executions started from queue `q0`:
(1) accounting — publishes of `v` plus its live-queue copies equal its
initial-plus-inserted copies plus its in-flight pending copies;
(2) the remaining snapshot of every frame plus its pending item is,
occurrence-wise, still contained in the live queue;
(3) at most one tick is in flight. -/
def Sinv (q0 : List Item) (c : Config) : Prop :=
  (∀ v : Item, countPub v c.events + c.queue.count v
      = q0.count v + c.inserted.count v + pendCount v c.frames) ∧
  (∀ f ∈ c.frames, ∀ v : Item,
      f.rest.count v + (pendList f).count v ≤ c.queue.count v) ∧
  c.frames.length ≤ 1

/-! Concrete data used by counterexamples and witnesses. -/

/-- A generic scheduled item, due at time 0. -/
def itemX : Item := ⟨"t", "m", "l", 0⟩

/-- An item whose publish succeeds (see `pubOkExceptX`). -/
def itemA : Item := ⟨"a", "", "", 0⟩

/-- The item whose publish call raises in the C2 scenario. -/
def itemFail : Item := ⟨"x", "", "", 0⟩

/-- An item scheduled after `itemFail` in the same tick. -/
def itemY : Item := ⟨"y", "", "", 0⟩

/-- Publish oracle that fails exactly on `itemFail`. -/
def pubOkExceptX : Item → Bool := fun i => i.title != "x"

/-- Status endpoint that always reports `pending`. -/
def pendingResp : Nat → PollResp := fun _ => ⟨some "pending", none⟩

/-- Status endpoint that reports `done` at once but carries no
`download_url`. -/
def doneNoUrlResp : Nat → PollResp := fun _ => ⟨some "done", none⟩

/-- Status endpoint: three `pending` responses, then `done` with url "U". -/
def fourthDoneResp : Nat → PollResp := fun i =>
  if i < 3 then ⟨some "pending", none⟩ else ⟨some "done", some "U"⟩

/-- Status queries that each take 20 s of wall-clock time (the transport
timeout passed to `requests.get` is 10 s per socket operation, so slow
queries of this order are possible). -/
def slowDur : Nat → Nat := fun _ => 20000

/-- Instantaneous status queries. -/
def zeroDur : Nat → Nat := fun _ => 0

end CenturyFox

namespace CenturyFox

/-- Claim C9: the mode registry satisfies read-after-write — `setMode u true`
then `getMode u` gives `true`, `setMode u false` then `getMode u` gives
`false` — and a user never set reads as `false`.  `getMode` is a pure
function of the registry, so it has no side effects. -/
theorem c9_mode_registry :
    (∀ (m : Modes) (u : Nat), getMode (setMode m u true) u = true) ∧
    (∀ (m : Modes) (u : Nat), getMode (setMode m u false) u = false) ∧
    (∀ u : Nat, getMode emptyModes u = false) := by
  refine ⟨?_, ?_, ?_⟩ <;> intros <;> simp [getMode, setMode, emptyModes]

/-- Claim C8: the `/queue` handler is a pure read.  Its state effect is the
identity on every configuration, and interleaving any number of listing
calls before any continuation (in particular between two dispatch ticks)
does not change what the continuation does. -/
theorem c8_list_pure :
    (∀ c : Config, execAct c Act.listQ = some c) ∧
    (∀ (c : Config) (n : Nat) (acts : List Act),
      execTrace c (List.replicate n Act.listQ ++ acts) = execTrace c acts) := by
  constructor
  · intro c; rfl
  · intro c n acts
    induction n with
    | zero => rfl
    | succ k ih => simpa [List.replicate_succ, execTrace, execAct] using ih

/-- Claim C10: when the first status query reports `done`, the polling loop
returns `status_json.get("download_url")` without validating its presence;
with the field absent the call succeeds with `none` after one poll. -/
theorem c10_done_missing_url (resp : Nat → PollResp) (dur : Nat → Nat)
    (interval timeout : Nat)
    (hs : (resp 0).status = some "done") (hu : (resp 0).download_url = none) :
    generate_voice resp dur interval timeout = PollOut.done none 1 (dur 0) := by
  unfold generate_voice
  simp [pollLoop, hs, hu]

/-- Witness for C10 at a concrete endpoint. -/
theorem c10_done_missing_url_witness :
    generate_voice doneNoUrlResp zeroDur 2000 30000 = PollOut.done none 1 0 :=
  c10_done_missing_url doneNoUrlResp zeroDur 2000 30000 rfl rfl

/-- Claim C7 (code bug evidence): with every status poll reporting
`pending`, the polling loop performs 17 polls and raises `TimeoutError` at
32 s elapsed.  The 16 waits between those polls are `time.sleep(2)` calls
(src/main.py:99) executed inside the synchronous `generate_voice`, which
`handle_message` (src/main.py:180) calls directly on the event-loop thread:
the whole process is stalled for those 32 s, no command handler or dispatch
tick can run — the code blocks where the claim requires a yielding wait. -/
theorem c7_blocking_sleep :
    generate_voice pendingResp zeroDur 2000 30000 = PollOut.timedOut 17 32000 := rfl

/-- Counterexample to C5 as stated: with status queries that take 20 s each
(all reporting `pending`), the `TimeoutError` is raised 42 s after the first
poll began, later than `timeout + pollInterval` = 32 s. -/
theorem c5_cex :
    generate_voice pendingResp slowDur 2000 30000 = PollOut.timedOut 2 42000 ∧
    30000 + 2000 < 42000 := ⟨rfl, by decide⟩

/-- Counterexample to C2 as stated: both items are due, the publish of
`itemFail` raises; the code aborts the tick, so `itemY` is never attempted
(`sent = []`) and `itemFail` is still in the queue — the claim asserted the
remaining items are attempted and the failing item was already removed. -/
theorem c2_cex :
    (tickRun 10 pubOkExceptX [itemFail, itemY]).failed = some itemFail ∧
    itemFail ∈ (tickRun 10 pubOkExceptX [itemFail, itemY]).queue ∧
    (tickRun 10 pubOkExceptX [itemFail, itemY]).sent = [] := by
  refine ⟨rfl, ?_, rfl⟩
  decide

/-- Counterexample to C4 as stated: the payload `a|b|c|-5` has a minutes
field that is not a non-negative integer, yet the handler succeeds and
appends an item (due 5 minutes in the past), instead of reporting a format
error and leaving the queue unchanged. -/
theorem c4_cex :
    post 0 [] "/post a|b|c|-5" = ([⟨"a", "b", "c", -300000000⟩], true) := by decide

/-- Counterexample to C3 as stated: an item inserted at `t0 = 500000` μs
with offset 1 minute has `t0 + d = 60500000` μs, but the stored
`%Y-%m-%d %H:%M:%S` string truncates sub-second precision, so a tick at
`now = 60000000` μs — strictly before `t0 + d` — already selects and
publishes the item. -/
theorem c3_cex :
    post 500000 [] "/post a|b|c|1" = ([mkItem "a" "b" "c" 500000 1], true) ∧
    (tickAll 60000000 [mkItem "a" "b" "c" 500000 1]).sent =
      [mkItem "a" "b" "c" 500000 1] ∧
    (60000000 : Int) < 500000 + 1 * usecPerMinute := by
  refine ⟨by decide, by decide, by decide⟩

/-- Counterexample to C1 as stated: starting from an empty queue, insert
`itemX` once, then start two ticks before either publishes (both snapshot
the queue still containing `itemX`); each tick finds the item due and
performs its `send_photo` before any removal runs.  The event log shows the
single inserted item published by two different ticks (ids 0 and 1). -/
theorem c1_cex :
    (execTrace (initConfig [])
        [Act.ins itemX, Act.tick 10, Act.tick 10, Act.adv 0, Act.adv 1]).map
        (fun c => (c.events, c.inserted)) = some ([(0, itemX), (1, itemX)], [itemX]) ∧
    countPub itemX [(0, itemX), (1, itemX)] = 2 := ⟨rfl, rfl⟩

/-- Claim C4 amended: whenever the field extraction fails — the payload does
not split into exactly four pipe-delimited fields, or the minutes field does
not parse as a (possibly negative) integer — the `/post` handler reports the
format error and leaves the queue completely unchanged. -/
theorem c4_amended (now : Int) (q : List Item) (text : String)
    (h : extract4 text = none) : post now q text = (q, false) := by
  unfold post
  split
  · rfl
  · rw [h]

/-- Witness for the amended C4: a three-field payload is rejected and the
queue is untouched. -/
theorem c4_amended_witness : post 7 [itemX] "/post a|b|c" = ([itemX], false) :=
  c4_amended 7 [itemX] "/post a|b|c" (by decide)

/-- When no status query ever reports `done` and the fuel exceeds the bound
forced by the timeout check, the polling loop raises `TimeoutError`; the
poll counter grows by at most `f + 1`, and with instantaneous queries the
elapsed time at the raise stays within `timeout + interval`. -/
theorem pollLoop_timeout_aux (resp : Nat → PollResp) (dur : Nat → Nat)
    (interval timeout : Nat) (hN : ∀ j, (resp j).status ≠ some "done") :
    ∀ f k e, timeout < e + f * interval →
      isTimedOut (pollLoop resp dur interval timeout (f + 1) k e) = true ∧
      pollsOf (pollLoop resp dur interval timeout (f + 1) k e) ≤ k + f + 1 ∧
      ((∀ j, dur j = 0) → e ≤ timeout + interval →
        elapsedOf (pollLoop resp dur interval timeout (f + 1) k e) ≤ timeout + interval) := by
  intro f
  induction f with
  | zero =>
    intro k e h
    simp only [pollLoop, if_neg (hN k)]
    rw [if_pos (by omega)]
    refine ⟨rfl, by simp only [pollsOf]; omega, ?_⟩
    intro hz he
    have hk := hz k
    simp only [elapsedOf]
    omega
  | succ f ih =>
    intro k e h
    rw [Nat.succ_mul] at h
    simp only [pollLoop, if_neg (hN k)]
    by_cases h2 : timeout < e + dur k
    · rw [if_pos h2]
      refine ⟨rfl, by simp only [pollsOf]; omega, ?_⟩
      intro hz he
      have hk := hz k
      simp only [elapsedOf]
      omega
    · rw [if_neg h2]
      obtain ⟨i1, i2, i3⟩ := ih (k + 1) (e + dur k + interval) (by omega)
      refine ⟨i1, ?_, ?_⟩
      · show pollsOf
            (pollLoop resp dur interval timeout (f + 1) (k + 1) (e + dur k + interval)) ≤
          k + (f + 1) + 1
        omega
      · intro hz he
        have hk := hz k
        show elapsedOf
            (pollLoop resp dur interval timeout (f + 1) (k + 1) (e + dur k + interval)) ≤
          timeout + interval
        exact i3 hz (by omega)

/-- Claim C5 amended: when no status query ever reports `done`, the polling
loop always terminates with the raised `TimeoutError` after at most
`timeout / pollInterval + 2` polls; the raise occurs no later than
`timeout + pollInterval` after the first poll began **provided the status
queries themselves take no time** (with slow queries the raise can come
later, see the counterexample `c5_cex`). -/
theorem c5_amended (resp : Nat → PollResp) (dur : Nat → Nat)
    (interval timeout : Nat) (hI : 0 < interval)
    (hN : ∀ j, (resp j).status ≠ some "done") :
    isTimedOut (generate_voice resp dur interval timeout) = true ∧
    pollsOf (generate_voice resp dur interval timeout) ≤ timeout / interval + 2 ∧
    ((∀ j, dur j = 0) →
      elapsedOf (generate_voice resp dur interval timeout) ≤ timeout + interval) := by
  have hmod : timeout % interval < interval := Nat.mod_lt _ hI
  have hdm : interval * (timeout / interval) + timeout % interval = timeout :=
    Nat.div_add_mod timeout interval
  have hmul : (timeout / interval + 1) * interval = interval * (timeout / interval) + interval := by
    ring
  have hdiv : timeout < 0 + (timeout / interval + 1) * interval := by
    rw [hmul]; omega
  have hgen : generate_voice resp dur interval timeout
      = pollLoop resp dur interval timeout ((timeout / interval + 1) + 1) 0 0 := rfl
  obtain ⟨a1, a2, a3⟩ :=
    pollLoop_timeout_aux resp dur interval timeout hN (timeout / interval + 1) 0 0 hdiv
  rw [hgen]
  exact ⟨a1, by omega, fun hz => a3 hz (by omega)⟩

/-- Witness for the amended C5: always-pending responses, instantaneous
queries, the 2 s interval. -/
theorem c5_amended_witness :
    isTimedOut (generate_voice pendingResp zeroDur 2000 30000) = true ∧
    pollsOf (generate_voice pendingResp zeroDur 2000 30000) ≤ 30000 / 2000 + 2 ∧
    ((∀ j, zeroDur j = 0) →
      elapsedOf (generate_voice pendingResp zeroDur 2000 30000) ≤ 30000 + 2000) :=
  c5_amended pendingResp zeroDur 2000 30000 (by decide) (fun j => by simp [pendingResp])

/-- With instantaneous queries, if the responses are not `done` before query
`k + m`, the response at `k + m` is `done`, and the timeout check cannot
fire before then, the loop returns the `download_url` of that response right at
poll `k + m + 1`. -/
theorem pollLoop_done_aux (resp : Nat → PollResp) (dur : Nat → Nat)
    (interval timeout : Nat) (hz : ∀ j, dur j = 0) :
    ∀ (m f k e : Nat),
      (∀ i, i < m → (resp (k + i)).status ≠ some "done") →
      (resp (k + m)).status = some "done" →
      (∀ i, i < m → e + i * interval ≤ timeout) →
      m < f →
      pollLoop resp dur interval timeout f k e =
        PollOut.done ((resp (k + m)).download_url) (k + m + 1) (e + m * interval) := by
  intro m
  induction m with
  | zero =>
    intro f k e _ hdone _ hf
    match f, hf with
    | f + 1, _ =>
      rw [Nat.add_zero] at hdone
      simp only [pollLoop, if_pos hdone, hz k]
      simp
  | succ m ih =>
    intro f k e hpend hdone hchk hf
    match f, hf with
    | f + 1, hf =>
      have h0 : (resp k).status ≠ some "done" := by
        simpa using hpend 0 (by omega)
      have hchk0 : e ≤ timeout := by
        simpa using hchk 0 (by omega)
      simp only [pollLoop, if_neg h0, hz k, Nat.add_zero]
      rw [if_neg (by omega)]
      have hpend2 : ∀ i, i < m → (resp (k + 1 + i)).status ≠ some "done" := by
        intro i hi
        have := hpend (i + 1) (by omega)
        simpa [show k + (i + 1) = k + 1 + i by omega] using this
      have hdone2 : (resp (k + 1 + m)).status = some "done" := by
        simpa [show k + (m + 1) = k + 1 + m by omega] using hdone
      have hchk2 : ∀ i, i < m → (e + interval) + i * interval ≤ timeout := by
        intro i hi
        have := hchk (i + 1) (by omega)
        rw [Nat.succ_mul] at this
        omega
      rw [ih f (k + 1) (e + interval) hpend2 hdone2 hchk2 (by omega)]
      have hidx : k + 1 + m = k + (m + 1) := by omega
      rw [hidx]
      have he2 : e + interval + m * interval = e + (m + 1) * interval := by
        rw [Nat.succ_mul]; omega
      rw [he2]

/-- Claim C6: if the first `n` status queries report something other than
`done` and the `(n+1)`-st reports `done` with `download_url = u`, and
`(n+1) * pollInterval ≤ timeout` (the timing premise of the claim, under which
the timeout check cannot fire first; queries are taken as instantaneous, as
the premise presumes), then the loop returns `u` immediately after exactly
`n + 1` polls. -/
theorem c6_success (resp : Nat → PollResp) (interval timeout n : Nat) (u : String)
    (hI : 0 < interval)
    (hpend : ∀ i, i < n → (resp i).status ≠ some "done")
    (hdone : (resp n).status = some "done")
    (hurl : (resp n).download_url = some u)
    (hfit : (n + 1) * interval ≤ timeout) :
    generate_voice resp zeroDur interval timeout =
      PollOut.done (some u) (n + 1) (n * interval) := by
  have hn : n < timeout / interval + 2 := by
    have := (Nat.le_div_iff_mul_le hI).mpr hfit
    omega
  have hpend0 : ∀ i, i < n → (resp (0 + i)).status ≠ some "done" := by
    intro i hi; simpa using hpend i hi
  have hdone0 : (resp (0 + n)).status = some "done" := by simpa using hdone
  have hchk0 : ∀ i, i < n → 0 + i * interval ≤ timeout := by
    intro i hi
    have h1 : i * interval ≤ n * interval := Nat.mul_le_mul_right interval (by omega)
    have h2 : (n + 1) * interval = n * interval + interval := by rw [Nat.succ_mul]
    omega
  have := pollLoop_done_aux resp zeroDur interval timeout (fun _ => rfl)
    n (timeout / interval + 2) 0 0 hpend0 hdone0 hchk0 hn
  rw [generate_voice, this]
  simp [hurl]

/-- Witness for C6: the scenario of the spec — three `pending` responses, then
`done` with url "U" — returns "U" after exactly 4 polls. -/
theorem c6_success_witness :
    generate_voice fourthDoneResp zeroDur 2000 30000 = PollOut.done (some "U") 4 6000 :=
  c6_success fourthDoneResp 2000 30000 3 "U" (by decide)
    (fun i hi => by simp [fourthDoneResp, hi]) (by decide) (by decide) (by decide)

/-- If the publish of `x` raises while every due item before it publishes
fine, the tick runs exactly through the due items of `pre` (publishing and
removing each) and then aborts at `x`, leaving the queue with only those
removals applied. -/
theorem tickGo_fail (n : Int) (pubOk : Item → Bool) (x : Item)
    (hx : due n x = true) (hfail : pubOk x = false) :
    ∀ (pre rest q : List Item), (∀ y ∈ pre, due n y = true → pubOk y = true) →
      tickGo n pubOk (pre ++ x :: rest) q =
        ⟨(pre.filter (due n)).foldl List.erase q, pre.filter (due n), some x⟩ := by
  intro pre
  induction pre with
  | nil =>
    intro rest q _
    simp [tickGo, hx, hfail]
  | cons y pre ih =>
    intro rest q hpre
    by_cases hy : due n y = true
    · have hyok : pubOk y = true := hpre y (List.mem_cons_self y pre) hy
      rw [List.cons_append]
      simp only [tickGo]
      rw [if_pos hy, if_pos hyok,
        ih rest (q.erase y) (fun z hz => hpre z (List.mem_cons_of_mem y hz))]
      simp [List.filter_cons, hy]
    · rw [List.cons_append]
      simp only [tickGo]
      rw [if_neg hy, ih rest q (fun z hz => hpre z (List.mem_cons_of_mem y hz))]
      have hyf : due n y = false := by simpa using hy
      simp [List.filter_cons, hyf]

/-- Erasing the elements of `l` one by one removes at most `count v l`
occurrences of `v`. -/
theorem count_foldl_erase (v : Item) :
    ∀ (l q : List Item), q.count v - l.count v ≤ (l.foldl List.erase q).count v := by
  intro l
  induction l with
  | nil => intro q; simp
  | cons y l ih =>
    intro q
    have h1 := ih (q.erase y)
    by_cases hv : v = y
    · subst hv
      rw [List.count_erase_self] at h1
      simp only [List.foldl_cons, List.count_cons, beq_self_eq_true, if_true]
      omega
    · rw [List.count_erase_of_ne hv] at h1
      have hbeq : (y == v) = false := by
        simp only [beq_eq_false_iff_ne, ne_eq]
        exact fun h => hv h.symm
      simp only [List.foldl_cons, List.count_cons, hbeq, Bool.false_eq_true, if_false]
      omega

/-- Claim C2 amended: within one tick, if the publish call raises for item
`x` (all earlier due items publishing fine), the exception propagates out of
`auto_post_loop`: the earlier due items were published and removed, but the
remaining items of the same tick are NOT attempted, and the failing item has
NOT been removed — it is still in the queue (and, not being removed, will be
found due again by a later tick). -/
theorem c2_amended (n : Int) (pubOk : Item → Bool) (pre rest : List Item) (x : Item)
    (hpre : ∀ y ∈ pre, due n y = true → pubOk y = true)
    (hx : due n x = true) (hfail : pubOk x = false) :
    (tickRun n pubOk (pre ++ x :: rest)).failed = some x ∧
    (tickRun n pubOk (pre ++ x :: rest)).sent = pre.filter (due n) ∧
    x ∈ (tickRun n pubOk (pre ++ x :: rest)).queue ∧
    ∀ y ∈ rest, y ∈ (tickRun n pubOk (pre ++ x :: rest)).queue := by
  have hrun : tickRun n pubOk (pre ++ x :: rest) =
      ⟨(pre.filter (due n)).foldl List.erase (pre ++ x :: rest),
        pre.filter (due n), some x⟩ :=
    tickGo_fail n pubOk x hx hfail pre rest (pre ++ x :: rest) hpre
  rw [hrun]
  refine ⟨rfl, rfl, ?_, ?_⟩
  · show x ∈ (pre.filter (due n)).foldl List.erase (pre ++ x :: rest)
    have h1 := count_foldl_erase x (pre.filter (due n)) (pre ++ x :: rest)
    have h2 : (pre.filter (due n)).count x ≤ pre.count x :=
      (List.filter_sublist pre).count_le x
    have h3 : (pre ++ x :: rest).count x = pre.count x + (x :: rest).count x :=
      List.count_append x pre (x :: rest)
    have h4 : (x :: rest).count x = rest.count x + 1 := by
      simp [List.count_cons]
    rw [← List.count_pos_iff]
    omega
  · intro y hy
    show y ∈ (pre.filter (due n)).foldl List.erase (pre ++ x :: rest)
    have h1 := count_foldl_erase y (pre.filter (due n)) (pre ++ x :: rest)
    have h2 : (pre.filter (due n)).count y ≤ pre.count y :=
      (List.filter_sublist pre).count_le y
    have h3 : (pre ++ x :: rest).count y = pre.count y + (x :: rest).count y :=
      List.count_append y pre (x :: rest)
    have h5 : 0 < rest.count y := List.count_pos_iff.mpr hy
    have h4 : rest.count y ≤ (x :: rest).count y := List.count_le_count_cons y x rest
    rw [← List.count_pos_iff]
    omega

/-- Witness for the amended C2: `itemA` and `itemFail` and `itemY` all due;
the publish of `itemFail` raises; `itemA` was published and removed, the
tick aborts with `itemY` unattempted and `itemFail` still queued. -/
theorem c2_amended_witness :
    (tickRun 10 pubOkExceptX ([itemA] ++ itemFail :: [itemY])).failed = some itemFail ∧
    (tickRun 10 pubOkExceptX ([itemA] ++ itemFail :: [itemY])).sent =
      [itemA].filter (due 10) ∧
    itemFail ∈ (tickRun 10 pubOkExceptX ([itemA] ++ itemFail :: [itemY])).queue ∧
    ∀ y ∈ [itemY], y ∈ (tickRun 10 pubOkExceptX ([itemA] ++ itemFail :: [itemY])).queue :=
  c2_amended 10 pubOkExceptX [itemA] [itemY] itemFail (by decide) (by decide) (by decide)

/-- Prepending an element that is erased by none of the erasures listed in `l` commutes
with the erasure fold. -/
theorem foldl_erase_cons_of_ne :
    ∀ (l q : List Item) (x : Item), (∀ y ∈ l, y ≠ x) →
      l.foldl List.erase (x :: q) = x :: l.foldl List.erase q := by
  intro l
  induction l with
  | nil => intro q x _; rfl
  | cons y l ih =>
    intro q x hne
    have hyx : y ≠ x := hne y (List.mem_cons_self y l)
    have hyx2 : ¬(x == y) = true := by simpa using fun h => hyx h.symm
    simp only [List.foldl_cons, List.erase_cons_tail hyx2]
    exact ih (q.erase y) x (fun z hz => hne z (List.mem_cons_of_mem y hz))

/-- Erasing from a list exactly its own `p`-filtered elements leaves exactly
the elements failing `p` (this is why the
iterate-snapshot-and-remove pattern of `auto_post_loop` behaves like an atomic partition when
the tick runs serially). -/
theorem foldl_erase_self_filter (p : Item → Bool) :
    ∀ q : List Item, (q.filter p).foldl List.erase q = q.filter (fun x => !(p x)) := by
  intro q
  induction q with
  | nil => rfl
  | cons x t ih =>
    by_cases hp : p x = true
    · simp only [List.filter_cons, hp, if_true, List.foldl_cons,
        List.erase_cons_head, Bool.not_true, Bool.false_eq_true, if_false]
      exact ih
    · have hpf : p x = false := by simpa using hp
      have hne : ∀ y ∈ t.filter p, y ≠ x := by
        intro y hy he
        have hpy : p y = true := (List.mem_filter.mp hy).2
        rw [he, hpf] at hpy
        exact Bool.false_ne_true hpy
      simp only [List.filter_cons, hpf, Bool.false_eq_true, if_false, Bool.not_false,
        if_true]
      rw [foldl_erase_cons_of_ne (t.filter p) t x hne, ih]

/-- A serialized all-successful tick partitions the queue by dueness:
published items are exactly the due ones (in queue order), the new queue is
exactly the not-due ones, and nothing raises. -/
theorem tickGo_all (n : Int) :
    ∀ (s q : List Item), tickGo n (fun _ => true) s q =
      ⟨(s.filter (due n)).foldl List.erase q, s.filter (due n), none⟩ := by
  intro s
  induction s with
  | nil => intro q; simp [tickGo]
  | cons x s ih =>
    intro q
    by_cases hx : due n x = true
    · simp only [tickGo, hx, if_true]
      rw [ih (q.erase x)]
      simp [List.filter_cons, hx]
    · have hxf : due n x = false := by simpa using hx
      simp only [tickGo, hxf]
      rw [ih q]
      simp [List.filter_cons, hxf]

/-- The partition form of a whole serialized tick. -/
theorem tickAll_eq (n : Int) (q : List Item) :
    tickAll n q = ⟨q.filter (fun x => !(due n x)), q.filter (due n), none⟩ := by
  unfold tickAll tickRun
  rw [tickGo_all n q q, foldl_erase_self_filter (due n) q]

/-- An item survives a run of serialized all-successful ticks exactly when
it was present and no tick time in the run reached its due time. -/
theorem mem_ticksQueue (it : Item) :
    ∀ (ns : List Int) (q : List Item),
      it ∈ ticksQueue ns q ↔ (it ∈ q ∧ ∀ m ∈ ns, due m it = false) := by
  intro ns
  induction ns with
  | nil => intro q; simp [ticksQueue]
  | cons m ns ih =>
    intro q
    have hstep : ticksQueue (m :: ns) q = ticksQueue ns ((tickAll m q).queue) := rfl
    rw [hstep, ih, tickAll_eq]
    simp only [List.mem_filter, List.mem_cons]
    constructor
    · rintro ⟨⟨hq, hnd⟩, hall⟩
      refine ⟨hq, ?_⟩
      rintro x (rfl | hx)
      · simpa using hnd
      · exact hall x hx
    · rintro ⟨hq, hall⟩
      exact ⟨⟨hq, by simpa using hall m (Or.inl rfl)⟩, fun x hx => hall x (Or.inr hx)⟩

/-- Claim C3 amended: an item inserted at `t0` with offset `dm` minutes is
stored with due time `truncUsec (t0 + dm·60s)` — the sub-second part of the
schedule time is dropped by the `%Y-%m-%d %H:%M:%S` storage format.  Across
any serialized run of all-successful ticks, the item is published by a tick
at time `n` exactly when `n` has reached that truncated due time and no
earlier tick had (so it goes out on the first tick at or past
`truncUsec(t0 + dm·60s)`, which can precede `t0 + dm·60s` by up to one
second, and on no other). -/
theorem c3_amended (t b l : String) (t0 dm : Int) (q : List Item)
    (pre : List Int) (n : Int) (hq : mkItem t b l t0 dm ∈ q) :
    mkItem t b l t0 dm ∈ (tickAll n (ticksQueue pre q)).sent ↔
      (truncUsec (t0 + dm * usecPerMinute) ≤ n ∧
        ∀ m ∈ pre, m < truncUsec (t0 + dm * usecPerMinute)) := by
  rw [tickAll_eq]
  simp only [List.mem_filter, mem_ticksQueue]
  constructor
  · rintro ⟨⟨_, hall⟩, hdue⟩
    constructor
    · simpa [due, mkItem] using hdue
    · intro m hm
      have := hall m hm
      simp only [due, mkItem, decide_eq_false_iff_not, Int.not_le] at this
      simpa [mkItem] using this
  · rintro ⟨hdue, hall⟩
    refine ⟨⟨hq, ?_⟩, by simpa [due, mkItem] using hdue⟩
    intro m hm
    have := hall m hm
    simp only [due, mkItem, decide_eq_false_iff_not, Int.not_le]
    simpa [mkItem] using this

/-- Witness for the amended C3: the item scheduled at `t0 = 0.5 s` for one
minute out is published by the tick at `now = 60 s` (after an earlier tick
at `1 ms` that leaves it alone), exactly as the truncated due time says. -/
theorem c3_amended_witness :
    mkItem "a" "b" "c" 500000 1 ∈
        (tickAll 60000000 (ticksQueue [1000] [mkItem "a" "b" "c" 500000 1])).sent ↔
      (truncUsec (500000 + 1 * usecPerMinute) ≤ 60000000 ∧
        ∀ m ∈ [(1000 : Int)], m < truncUsec (500000 + 1 * usecPerMinute)) :=
  c3_amended "a" "b" "c" 500000 1 [mkItem "a" "b" "c" 500000 1] [1000] 60000000
    (by decide)

/-- Appending one publish event adds the count of its item. -/
theorem countPub_snoc (v : Item) (es : List (Nat × Item)) (i : Nat) (x : Item) :
    countPub v (es ++ [(i, x)]) = countPub v es + List.count v [x] := by
  unfold countPub
  rw [List.map_append, List.count_append]
  rfl

/-- Every serialized step preserves the invariant `Sinv`. -/
theorem sinv_step (q0 : List Item) (b c : Config) (act : Act)
    (hb : Sinv q0 b) (h2 : execAct b act = some c)
    (h3 : ∀ t, act = Act.tick t → b.frames = []) : Sinv q0 c := by
  obtain ⟨hacc, hsub, hlen⟩ := hb
  cases act with
  | ins it =>
    simp only [execAct] at h2
    obtain rfl := Option.some.inj h2
    refine ⟨?_, ?_, hlen⟩
    · intro v
      have h := hacc v
      simp only [List.count_append]
      omega
    · intro f hf v
      have h := hsub f hf v
      simp only [List.count_append]
      omega
  | listQ =>
    simp only [execAct] at h2
    obtain rfl := Option.some.inj h2
    exact ⟨hacc, hsub, hlen⟩
  | tick t =>
    have hbf : b.frames = [] := h3 t rfl
    simp only [execAct] at h2
    obtain rfl := Option.some.inj h2
    refine ⟨?_, ?_, ?_⟩
    · intro v
      have h := hacc v
      rw [hbf] at h ⊢
      simp only [List.nil_append, pendCount, pendList, Option.toList_none,
        List.count_nil] at h ⊢
      omega
    · intro f hf v
      rw [hbf] at hf
      simp only [List.nil_append, List.mem_singleton] at hf
      subst hf
      simp [pendList]
    · rw [hbf]; simp
  | adv i =>
    simp only [execAct] at h2
    cases hbfr : b.frames with
    | nil =>
      rw [hbfr] at h2
      simp at h2
    | cons f0 fs =>
      have hfs : fs = [] := by
        rw [hbfr] at hlen
        simp only [List.length_cons] at hlen
        exact List.length_eq_zero.mp (by omega)
      subst hfs
      cases i with
      | succ j =>
        rw [hbfr] at h2
        simp at h2
      | zero =>
        rw [hbfr] at h2
        simp only [List.get?_cons_zero] at h2
        have hf0 : f0 ∈ b.frames := by rw [hbfr]; exact List.mem_cons_self f0 []
        split at h2
        case h_1 x hp =>
          split at h2
          case isTrue hm =>
            obtain rfl := Option.some.inj h2
            have hpos : 0 < b.queue.count x := List.count_pos_iff.mpr hm
            refine ⟨?_, ?_, ?_⟩
            · intro v
              have h := hacc v
              rw [hbfr] at h
              simp only [pendCount, pendList, hp, Option.toList_some,
                List.count_nil, List.set_cons_zero, Option.toList_none] at h ⊢
              by_cases hv : x = v
              · subst hv
                have h4 : List.count x [x] = 1 := List.count_singleton_self x
                rw [List.count_erase_self]
                omega
              · have h4 : List.count v [x] = 0 := by
                  rw [List.count_eq_zero]
                  simp only [List.mem_singleton]
                  exact fun he => hv he.symm
                rw [List.count_erase_of_ne (fun he => hv he.symm)]
                omega
            · intro f hf v
              simp only [List.set_cons_zero, List.mem_singleton] at hf
              subst hf
              have h := hsub f0 hf0 v
              simp only [pendList, hp, Option.toList_some, Option.toList_none,
                List.count_nil]
              simp only [pendList, hp, Option.toList_some] at h
              by_cases hv : x = v
              · subst hv
                have h4 : List.count x [x] = 1 := List.count_singleton_self x
                rw [List.count_erase_self]
                omega
              · have h4 : List.count v [x] = 0 := by
                  rw [List.count_eq_zero]
                  simp only [List.mem_singleton]
                  exact fun he => hv he.symm
                rw [List.count_erase_of_ne (fun he => hv he.symm)]
                omega
            · simp
          case isFalse hm =>
            obtain rfl := Option.some.inj h2
            exfalso
            have h := hsub f0 hf0 x
            simp only [pendList, hp, Option.toList_some] at h
            have h0 : b.queue.count x = 0 := List.count_eq_zero.mpr hm
            have h4 : List.count x [x] = 1 := List.count_singleton_self x
            omega
        case h_2 hp =>
          split at h2
          case h_1 hr =>
            obtain rfl := Option.some.inj h2
            refine ⟨?_, ?_, ?_⟩
            · intro v
              have h := hacc v
              rw [hbfr] at h
              simp only [pendCount, pendList, hp, Option.toList_none,
                List.count_nil, List.eraseIdx_cons_zero] at h ⊢
              omega
            · intro f hf v
              simp only [List.eraseIdx_cons_zero] at hf
              exact absurd hf (List.not_mem_nil f)
            · simp
          case h_2 x r hr =>
            split at h2
            case isTrue hd =>
              obtain rfl := Option.some.inj h2
              refine ⟨?_, ?_, ?_⟩
              · intro v
                have h := hacc v
                rw [hbfr] at h
                simp only [pendCount, pendList, hp, Option.toList_none,
                  List.count_nil, List.set_cons_zero, Option.toList_some] at h ⊢
                rw [countPub_snoc]
                omega
              · intro f hf v
                simp only [List.set_cons_zero, List.mem_singleton] at hf
                subst hf
                have h := hsub f0 hf0 v
                rw [hr] at h
                simp only [pendList, hp, Option.toList_none, List.count_nil,
                  Option.toList_some]
                simp only [pendList, hp, Option.toList_none, List.count_nil] at h
                have h5 : List.count v (x :: r) = List.count v r + List.count v [x] := by
                  simp only [List.count_cons, List.count_nil]
                  omega
                omega
              · simp
            case isFalse hd =>
              obtain rfl := Option.some.inj h2
              refine ⟨?_, ?_, ?_⟩
              · intro v
                have h := hacc v
                rw [hbfr] at h
                simp only [pendCount, pendList, hp, Option.toList_none,
                  List.count_nil, List.set_cons_zero] at h ⊢
                omega
              · intro f hf v
                simp only [List.set_cons_zero, List.mem_singleton] at hf
                subst hf
                have h := hsub f0 hf0 v
                rw [hr] at h
                simp only [pendList, hp, Option.toList_none, List.count_nil] at h ⊢
                have h5 := List.count_le_count_cons v x r
                omega
              · simp

/-- The invariant holds at every configuration serially reachable from an
initial queue. -/
theorem sinv_reach (q0 : List Item) (c : Config)
    (h : SRun (initConfig q0) c) : Sinv q0 c := by
  induction h with
  | refl =>
    refine ⟨?_, ?_, ?_⟩
    · intro v; simp [initConfig, countPub, pendCount]
    · intro f hf v; simp [initConfig] at hf
    · simp [initConfig]
  | step act h1 h2 h3 ih => exact sinv_step q0 _ _ act ih h2 h3

/-- Claim C1 amended: provided no two ticks overlap each other (the
publish suspensions of a tick may interleave with inserts and `/queue` listings, but a
new tick starts only after the previous one finished — the single-instance
discipline of the job runner) and every publish call succeeds, each item is
selected for publishing at most once: the publish events for a value never
outnumber its copies among the initial queue plus the inserts.  Without the
no-overlap proviso the property fails (`c1_cex`): removal happens only after
the `send_photo` suspension, so the snapshot of a second tick still sees the
item. -/
theorem c1_amended (q0 : List Item) (c : Config)
    (h : SRun (initConfig q0) c) (v : Item) :
    countPub v c.events ≤ q0.count v + c.inserted.count v := by
  obtain ⟨hacc, hsub, hlen⟩ := sinv_reach q0 c h
  have h1 := hacc v
  have h2 : pendCount v c.frames ≤ c.queue.count v := by
    cases hbf : c.frames with
    | nil => simp [pendCount]
    | cons f fs =>
      have hfs : fs = [] := by
        rw [hbf] at hlen
        simp only [List.length_cons] at hlen
        exact List.length_eq_zero.mp (by omega)
      subst hfs
      have h := hsub f (by rw [hbf]; exact List.mem_cons_self f []) v
      simp only [pendCount]
      omega
  omega

/-- Witness for the amended C1: queue `[itemX]`, one serialized tick at time
5 that has published `itemX` (one publish event) but not yet removed it. -/
theorem c1_amended_witness :
    countPub itemX [(0, itemX)] ≤ [itemX].count itemX + ([] : List Item).count itemX := by
  have s1 : execAct (initConfig [itemX]) (Act.tick 5) =
      some ⟨[itemX], [⟨0, 5, [itemX], none⟩], [], [], 1⟩ := by decide
  have s2 : execAct ⟨[itemX], [⟨0, 5, [itemX], none⟩], [], [], 1⟩ (Act.adv 0) =
      some ⟨[itemX], [⟨0, 5, [], some itemX⟩], [(0, itemX)], [], 1⟩ := by decide
  exact c1_amended [itemX] ⟨[itemX], [⟨0, 5, [], some itemX⟩], [(0, itemX)], [], 1⟩
    (SRun.step (Act.adv 0)
      (SRun.step (Act.tick 5) (SRun.refl _) s1 (fun t ht => rfl))
      s2 (fun t ht => nomatch ht))
    itemX

end CenturyFox
